import Mathlib

/-!
Shallow embedding of the BitTorrent client's core pure logic:
`handshake.py`, `messages.py`, `piece_manager.py` and the piece-selection
loops of `connection.py`.  Bytes are modelled as `List Nat` (each entry a
byte value `< 256` where it matters); Python dicts keyed by integers are
modelled as association lists in insertion order; Python `struct.pack` /
`struct.unpack` of `>I` are explicit big-endian conversions.
-/

namespace BT

abbrev Bytes := List Nat

/-! ## Big-endian 32-bit integers (`struct.pack('>I', n)` / `struct.unpack('>I', b)`) -/

/-- `struct.pack('>I', n)`: the four big-endian bytes of `n` (for `n < 2^32`). -/
def u32be (n : Nat) : Bytes :=
  [n / 2 ^ 24 % 256, n / 2 ^ 16 % 256, n / 2 ^ 8 % 256, n % 256]

/-- `struct.unpack('>I', b)[0]` for a 4-byte buffer `b`. -/
def u32de (b : Bytes) : Nat :=
  b.getD 0 0 * 2 ^ 24 + b.getD 1 0 * 2 ^ 16 + b.getD 2 0 * 2 ^ 8 + b.getD 3 0

theorem u32de_u32be (n : Nat) (h : n < 2 ^ 32) : u32de (u32be n) = n := by
  simp only [u32be, u32de, List.getD_cons_zero, List.getD_cons_succ]
  omega

theorem length_u32be (n : Nat) : (u32be n).length = 4 := rfl

/-! ## `handshake.py` -/

/-- `PROTOCOL = b'BitTorrent protocol'` (the 19 ASCII byte values). -/
def PROTOCOL : Bytes :=
  [66, 105, 116, 84, 111, 114, 114, 101, 110, 116, 32,
   112, 114, 111, 116, 111, 99, 111, 108]

theorem length_PROTOCOL : PROTOCOL.length = 19 := rfl

/-- `construct_handshake(info_hash, peer_id)`; `none` models the
`ValueError` raised on inputs of the wrong length. -/
def construct_handshake (info_hash peer_id : Bytes) : Option Bytes :=
  if info_hash.length = 20 ∧ peer_id.length = 20 then
    some (19 :: PROTOCOL ++ List.replicate 8 0 ++ info_hash ++ peer_id)
  else
    none

/-- Result of `parse_handshake`: `(protocol_string, reserved_bytes, info_hash, peer_id)`. -/
structure ParsedHandshake where
  protocol_string : Bytes
  reserved_bytes : Bytes
  info_hash : Bytes
  peer_id : Bytes
deriving DecidableEq, Repr

/-- `parse_handshake(handshake_data)`; `none` models a raised `ValueError`. -/
def parse_handshake (data : Bytes) : Option ParsedHandshake :=
  if data.length ≠ 68 then none
  else
    let protocol_length := data.getD 0 0
    let protocol_string := (data.drop 1).take 19
    let reserved_bytes := (data.drop 20).take 8
    let info_hash := (data.drop 28).take 20
    let peer_id := (data.drop 48).take 20
    if protocol_length ≠ 19 then none
    else if protocol_string ≠ PROTOCOL then none
    else some ⟨protocol_string, reserved_bytes, info_hash, peer_id⟩

/-- `validate_handshake(handshake_data, expected_info_hash)`: returns
`(is_valid, peer_id)`; the `except` clause maps parse failures to `(False, None)`. -/
def validate_handshake (data expected_info_hash : Bytes) :
    Bool × Option Bytes :=
  match parse_handshake data with
  | none => (false, none)
  | some p =>
    if p.info_hash ≠ expected_info_hash then (false, none)
    else (true, some p.peer_id)

/-! ## `messages.py` -/

/-- `create_message(message_id, payload)`; `none` models the `struct.error`
raised by `struct.pack('>IB', ...)` on out-of-range arguments. -/
def create_message (message_id : Nat) (payload : Bytes) : Option Bytes :=
  let length := 1 + payload.length
  if length < 2 ^ 32 ∧ message_id < 2 ^ 8 then
    some (u32be length ++ message_id :: payload)
  else
    none

/-- `parse_message(data)`: `none` when incomplete, otherwise
`(message_id?, payload, bytes_consumed)` with `message_id? = none` for keep-alive. -/
def parse_message (data : Bytes) : Option (Option Nat × Bytes × Nat) :=
  if data.length < 4 then none
  else
    let length := u32de (data.take 4)
    if length = 0 then some (none, [], 4)
    else if data.length < 4 + length then none
    else
      let message_id := data.getD 4 0
      let payload := if length > 1 then (data.drop 5).take (length - 1) else []
      some (some message_id, payload, 4 + length)

/-- The inner loop of `parse_bitfield`: bits of one byte, most significant first. -/
def byteToBits (byte : Nat) : List Bool :=
  [7, 6, 5, 4, 3, 2, 1, 0].map (fun bit_pos => (byte &&& (1 <<< bit_pos)) != 0)

/-- `parse_bitfield(payload)`: one `Bool` per bit, MSB of each byte first. -/
def parse_bitfield : Bytes → List Bool
  | [] => []
  | byte :: rest => byteToBits byte ++ parse_bitfield rest

/-- The session's entire handling of a received BITFIELD message
(`connection.py` lines 244-248): the payload is decoded and stored with no
validation of its length or padding bits, and no error path exists. -/
def handle_bitfield (payload : Bytes) : List Bool :=
  parse_bitfield payload

/-! ## `piece_manager.py`: block maps and piece assembly

A Python block dict `{offset: data}` is an association list in insertion
order; dict-key lookup is `List.lookup` (keys of a dict are distinct). -/

abbrev Blocks := List (Nat × Bytes)

/-- `blocks[offset]` for an offset known to be a key of the dict. -/
def lookupBlock (blocks : Blocks) (off : Nat) : Bytes :=
  (blocks.lookup off).getD []

/-- `sorted(blocks.keys())`. -/
def sortedOffsets (blocks : Blocks) : List Nat :=
  List.insertionSort (· ≤ ·) (blocks.map Prod.fst)

/-- `sum(len(data) for data in blocks.values())`. -/
def totalSize (blocks : Blocks) : Nat :=
  (blocks.map (fun b => b.2.length)).sum

/-- The sequential-offset walk shared by `is_piece_complete` and
`assemble_piece`: checks `offset == expected_offset` along the sorted offsets. -/
def checkSeq (blocks : Blocks) : List Nat → Nat → Bool
  | [], _ => true
  | off :: rest, expected_offset =>
    if off ≠ expected_offset then false
    else checkSeq blocks rest (expected_offset + (lookupBlock blocks off).length)

/-- `is_piece_complete(pieces_dict, piece_index, expected_piece_length)`.
The `total_size < expected_piece_length - 100` test uses truncated
subtraction, which agrees with Python's integer test because
`total_size ≥ 0`. -/
def is_piece_complete (pieces_dict : List (Nat × Blocks))
    (piece_index expected_piece_length : Nat) : Bool :=
  match pieces_dict.lookup piece_index with
  | none => false
  | some blocks =>
    if blocks.isEmpty then false
    else if totalSize blocks < expected_piece_length - 100 then false
    else checkSeq blocks (sortedOffsets blocks) 0

/-- The assembly walk of `assemble_piece`: concatenates blocks along the
sorted offsets, failing on the first gap. -/
def assembleLoop (blocks : Blocks) : List Nat → Nat → Bytes → Option Bytes
  | [], _, acc => some acc
  | off :: rest, expected_offset, acc =>
    if off ≠ expected_offset then none
    else
      assembleLoop blocks rest
        (expected_offset + (lookupBlock blocks off).length)
        (acc ++ lookupBlock blocks off)

/-- `assemble_piece(pieces_dict, piece_index)`: `none` models `return None`. -/
def assemble_piece (pieces_dict : List (Nat × Blocks)) (piece_index : Nat) :
    Option Bytes :=
  match pieces_dict.lookup piece_index with
  | none => none
  | some blocks =>
    if blocks.isEmpty then none
    else assembleLoop blocks (sortedOffsets blocks) 0 []

/-! ## `connection.py`: depositing a received block

On `MSG_PIECE` the session executes
`pieces_received[piece_index][block_offset] = block_data` with no
validation.  Python dict assignment replaces an existing key in place and
appends a new key. -/

/-- `blocks[block_offset] = block_data` on one piece's block dict. -/
def depositBlock (blocks : Blocks) (block_offset : Nat) (block_data : Bytes) :
    Blocks :=
  if blocks.any (fun b => b.1 == block_offset) then
    blocks.map (fun b => if b.1 == block_offset then (block_offset, block_data) else b)
  else
    blocks ++ [(block_offset, block_data)]

/-- Two stored blocks occupy disjoint byte ranges. -/
def blocksDisjoint (b c : Nat × Bytes) : Prop :=
  b.1 + b.2.length ≤ c.1 ∨ c.1 + c.2.length ≤ b.1

instance (b c : Nat × Bytes) : Decidable (blocksDisjoint b c) := by
  unfold blocksDisjoint; infer_instance

/-- The per-piece assembly invariant of the spec: every stored block lies
within the piece and no two stored blocks overlap. -/
def assemblyInv (piece_length : Nat) (blocks : Blocks) : Prop :=
  (∀ b ∈ blocks, b.1 + b.2.length ≤ piece_length) ∧
  blocks.Pairwise blocksDisjoint

/-! ## `connection.py`: piece selection

`async_request_initial_blocks` and `async_request_next_available_piece`
iterate `piece_index` over `range(min(pieces_to_download, len(bitfield)))`
and claim a piece when it is not completed, not downloading, and the peer
has it.  With `shared_state = None` (the single-peer configuration) the
`can_download` test is vacuous, and the I/O performed per claim does not
affect selection, so the claim sequence is a pure function of the inputs.
The Python sets are `Finset Nat`. -/

/-- The claiming condition of both selection loops (sans the capacity test):
`piece_index not in pieces_completed and piece_index not in
pieces_downloading and bitfield[piece_index]`. -/
def eligiblePiece (bitfield : List Bool) (completed downloading : Finset Nat)
    (i : Nat) : Bool :=
  decide (i ∉ completed) && decide (i ∉ downloading) && bitfield.getD i false

/-- The loop body of `async_request_initial_blocks`: claims eligible indices
in ascending order while `len(pieces_downloading) < max_concurrent`,
breaking once the bound is reached.  Returns the claimed indices in claim
order together with the final `pieces_downloading` set. -/
def claimInitial (bitfield : List Bool) (completed : Finset Nat)
    (max_concurrent : Nat) :
    List Nat → Finset Nat → List Nat × Finset Nat
  | [], downloading => ([], downloading)
  | i :: rest, downloading =>
    if eligiblePiece bitfield completed downloading i
        ∧ downloading.card < max_concurrent then
      let downloading' := insert i downloading
      if max_concurrent ≤ downloading'.card then ([i], downloading')
      else
        let r := claimInitial bitfield completed max_concurrent rest downloading'
        (i :: r.1, r.2)
    else claimInitial bitfield completed max_concurrent rest downloading

/-- `async_request_initial_blocks` (selection effect only): the pieces it
claims and the resulting `pieces_downloading` set. -/
def async_request_initial_blocks (bitfield : List Bool)
    (completed downloading : Finset Nat)
    (pieces_to_download max_concurrent : Nat) : List Nat × Finset Nat :=
  claimInitial bitfield completed max_concurrent
    (List.range (min pieces_to_download bitfield.length)) downloading

/-- The loop body of `async_request_next_available_piece`: claims the first
eligible index and breaks. -/
def claimNext (bitfield : List Bool) (completed : Finset Nat) :
    List Nat → Finset Nat → Option Nat × Finset Nat
  | [], downloading => (none, downloading)
  | i :: rest, downloading =>
    if eligiblePiece bitfield completed downloading i then
      (some i, insert i downloading)
    else claimNext bitfield completed rest downloading

/-- `async_request_next_available_piece` (selection effect only). -/
def async_request_next_available_piece (bitfield : List Bool)
    (completed downloading : Finset Nat) (pieces_to_download : Nat) :
    Option Nat × Finset Nat :=
  claimNext bitfield completed
    (List.range (min pieces_to_download bitfield.length)) downloading

/-- The selection condition of the spec's `claim_next`: the peer has piece
`i`, it is neither completed nor in flight, and `i < N`. -/
def eligSpec (bitfield : List Bool) (completed downloading : Finset Nat)
    (N i : Nat) : Prop :=
  bitfield.getD i false = true ∧ i ∉ completed ∧ i ∉ downloading ∧ i < N

instance (bitfield : List Bool) (completed downloading : Finset Nat)
    (N i : Nat) : Decidable (eligSpec bitfield completed downloading N i) := by
  unfold eligSpec; infer_instance

/-! ## Theorems -/

theorem parse_construct_handshake (h p : Bytes) (hh : h.length = 20)
    (hp : p.length = 20) :
    parse_handshake (19 :: PROTOCOL ++ List.replicate 8 0 ++ h ++ p) =
      some ⟨PROTOCOL, List.replicate 8 0, h, p⟩ := by
  have hlen : (19 :: PROTOCOL ++ List.replicate 8 0 ++ h ++ p).length = 68 := by
    simp [PROTOCOL, hh, hp]
  have hassoc : 19 :: PROTOCOL ++ List.replicate 8 0 ++ h ++ p =
      19 :: (PROTOCOL ++ (List.replicate 8 0 ++ (h ++ p))) := by
    simp [List.append_assoc]
  rw [parse_handshake, if_neg (by omega)]
  simp only [hassoc, PROTOCOL, List.replicate]
  simp only [List.cons_append, List.nil_append, List.getD_cons_zero,
    List.drop_succ_cons, List.drop_zero, List.take_succ_cons, List.take_zero,
    List.take_left' hh]
  have hdrop : (h ++ p).drop 20 = p := by
    rw [← hh, List.drop_left]
  rw [hdrop, List.take_of_length_le (by omega)]
  simp [PROTOCOL]

/-- C2: for all 20-byte `h` and `p`, `construct_handshake h p` succeeds and
is exactly the 68-byte layout `19, "BitTorrent protocol", 8 zero bytes, h, p`,
and `validate_handshake` of it against the same infohash returns
`(true, p)`. -/
theorem handshake_roundtrip (h p : Bytes) (hh : h.length = 20)
    (hp : p.length = 20) :
    construct_handshake h p =
      some (19 :: PROTOCOL ++ List.replicate 8 0 ++ h ++ p) ∧
    (19 :: PROTOCOL ++ List.replicate 8 0 ++ h ++ p).length = 68 ∧
    validate_handshake (19 :: PROTOCOL ++ List.replicate 8 0 ++ h ++ p) h =
      (true, some p) := by
  refine ⟨by rw [construct_handshake, if_pos ⟨hh, hp⟩], by simp [PROTOCOL, hh, hp], ?_⟩
  rw [validate_handshake, parse_construct_handshake h p hh hp]
  simp

/-- Witness for `handshake_roundtrip` at concrete 20-byte inputs. -/
theorem handshake_roundtrip_witness :
    validate_handshake
      (19 :: PROTOCOL ++ List.replicate 8 0 ++
        List.replicate 20 1 ++ List.replicate 20 2)
      (List.replicate 20 1) = (true, some (List.replicate 20 2)) :=
  (handshake_roundtrip (List.replicate 20 1) (List.replicate 20 2)
    (by decide) (by decide)).2.2

/-- C3: encoding a message id `m ≤ 255` with a payload obeying the framing
bound and parsing it back, with arbitrary trailing bytes, yields exactly
`(m, P)` with `5 + |P|` bytes consumed, and the consumed prefix is the
encoding itself. -/
theorem message_roundtrip (m : Nat) (P rest : Bytes) (hm : m ≤ 255)
    (hP : 1 + P.length < 2 ^ 32) :
    ∃ msg, create_message m P = some msg ∧
      parse_message (msg ++ rest) = some (some m, P, 5 + P.length) ∧
      (msg ++ rest).take (5 + P.length) = msg := by
  refine ⟨u32be (1 + P.length) ++ m :: P, ?_, ?_, ?_⟩
  · rw [create_message, if_pos ⟨hP, by omega⟩]
  · have hassoc : (u32be (1 + P.length) ++ m :: P) ++ rest =
        u32be (1 + P.length) ++ (m :: (P ++ rest)) := by
      simp
    have htake : (u32be (1 + P.length) ++ (m :: (P ++ rest))).take 4 =
        u32be (1 + P.length) := List.take_left' (length_u32be _)
    have hde : u32de (u32be (1 + P.length)) = 1 + P.length := u32de_u32be _ hP
    have hlen : (u32be (1 + P.length) ++ (m :: (P ++ rest))).length =
        5 + P.length + rest.length := by
      simp [length_u32be]
      omega
    rw [hassoc, parse_message, if_neg (by omega), htake, hde,
      if_neg (by omega), if_neg (by omega)]
    have hid : (u32be (1 + P.length) ++ (m :: (P ++ rest))).getD 4 0 = m := by
      simp [u32be, List.getD_cons_succ, List.getD_cons_zero]
    have hdrop : (u32be (1 + P.length) ++ (m :: (P ++ rest))).drop 5 =
        P ++ rest := by
      simp [u32be]
    rw [hid, hdrop]
    by_cases h0 : P.length = 0
    · rw [List.length_eq_zero.mp h0]
      simp
    · rw [if_pos (by omega)]
      have h1 : 1 + P.length - 1 = P.length := by omega
      rw [h1, List.take_left' rfl]
      have : 4 + (1 + P.length) = 5 + P.length := by omega
      rw [this]
  · exact List.take_left' (by simp [length_u32be]; omega)

/-- Witness for `message_roundtrip` at `m = 7`, `P = [1, 2, 3]`, `rest = [9]`. -/
theorem message_roundtrip_witness :
    ∃ msg, create_message 7 [1, 2, 3] = some msg ∧
      parse_message (msg ++ [9]) = some (some 7, [1, 2, 3], 5 + 3) ∧
      (msg ++ [9]).take (5 + 3) = msg :=
  message_roundtrip 7 [1, 2, 3] [9] (by omega) (by simp)

/-- C4: `parse_message` returns `none` exactly when fewer than 4 bytes are
buffered or the declared non-empty frame is not fully buffered; a declared
length of 0 parses as a keep-alive consuming 4 bytes; and any successful
parse consumes at most the buffered bytes. -/
theorem parse_message_framing (buf : Bytes) :
    (parse_message buf = none ↔
      buf.length < 4 ∨
        (0 < u32de (buf.take 4) ∧ buf.length < 4 + u32de (buf.take 4))) ∧
    (4 ≤ buf.length → u32de (buf.take 4) = 0 →
      parse_message buf = some (none, [], 4)) ∧
    (∀ id payload consumed,
      parse_message buf = some (id, payload, consumed) →
        consumed ≤ buf.length) := by
  by_cases h4 : buf.length < 4
  · rw [parse_message, if_pos h4]
    exact ⟨by simp [h4], fun h _ => absurd h (by omega), fun _ _ _ h => by cases h⟩
  · by_cases h0 : u32de (buf.take 4) = 0
    · rw [parse_message, if_neg h4, if_pos h0]
      refine ⟨?_, fun _ _ => rfl, ?_⟩
      · simp only [reduceCtorEq, false_iff]
        omega
      · intro idm payload consumed h
        simp only [Option.some.injEq, Prod.mk.injEq] at h
        obtain ⟨-, -, hc⟩ := h
        omega
    · by_cases hfull : buf.length < 4 + u32de (buf.take 4)
      · rw [parse_message, if_neg h4, if_neg h0, if_pos hfull]
        exact ⟨⟨fun _ => Or.inr ⟨by omega, hfull⟩, fun _ => rfl⟩,
          fun _ h => absurd h h0, fun _ _ _ h => by cases h⟩
      · rw [parse_message, if_neg h4, if_neg h0, if_neg hfull]
        refine ⟨?_, fun _ h => absurd h h0, ?_⟩
        · simp only [reduceCtorEq, false_iff]
          omega
        · intro idm payload consumed h
          simp only [Option.some.injEq, Prod.mk.injEq] at h
          obtain ⟨-, -, hc⟩ := h
          omega

/-- Witness for `parse_message_framing`: a 4-byte keep-alive frame parses as
`(none, [], 4)`. -/
theorem parse_message_framing_witness :
    parse_message [0, 0, 0, 0] = some (none, [], 4) :=
  (parse_message_framing [0, 0, 0, 0]).2.1 (by decide) (by decide)

theorem and_shift_testBit (b k : Nat) : ((b &&& (1 <<< k)) != 0) = b.testBit k := by
  rw [Nat.shiftLeft_eq, one_mul, Nat.and_two_pow]
  cases h : b.testBit k
  · simp
  · simp [Nat.pos_iff_ne_zero]

theorem length_byteToBits (b : Nat) : (byteToBits b).length = 8 := rfl

theorem byteToBits_getD (b i : Nat) (h : i < 8) :
    (byteToBits b).getD i false = b.testBit (7 - i % 8) := by
  interval_cases i <;>
    simp only [byteToBits, List.map_cons, List.map_nil, List.getD_cons_zero,
      List.getD_cons_succ, and_shift_testBit]

/-- C8: `parse_bitfield P` has exactly `8 × |P|` entries, and entry `i` is
bit `7 − (i mod 8)` of byte `⌊i/8⌋` of the payload: MSB-first within each
byte. -/
theorem parse_bitfield_spec (P : Bytes) :
    (parse_bitfield P).length = 8 * P.length ∧
    ∀ i, i < 8 * P.length →
      (parse_bitfield P).getD i false =
        Nat.testBit (P.getD (i / 8) 0) (7 - i % 8) := by
  induction P with
  | nil => exact ⟨rfl, fun i hi => absurd hi (by simp)⟩
  | cons b rest ih =>
    constructor
    · simp [parse_bitfield, length_byteToBits, ih.1]
      ring
    · intro i hi
      rw [parse_bitfield]
      by_cases h8 : i < 8
      · rw [List.getD_append _ _ _ _ (by rw [length_byteToBits]; omega),
          byteToBits_getD b i h8]
        have : i / 8 = 0 := by omega
        rw [this, List.getD_cons_zero]
      · rw [List.getD_append_right _ _ _ _ (by rw [length_byteToBits]; omega),
          length_byteToBits]
        have h1 : (i - 8) / 8 = i / 8 - 1 := by omega
        have h2 : (i - 8) % 8 = i % 8 := by omega
        have h3 : i / 8 - 1 + 1 = i / 8 := by omega
        rw [ih.2 (i - 8) (by simp only [List.length_cons] at hi; omega), h1, h2, ← h3,
          List.getD_cons_succ, h3]

/-- Witness for `parse_bitfield_spec`: entry 0 of the bitfield of payload
`[0x80]` is bit 7 of the byte. -/
theorem parse_bitfield_spec_witness :
    (parse_bitfield [128]).getD 0 false = Nat.testBit 128 7 :=
  (parse_bitfield_spec [128]).2 0 (by simp)

/-- C1 (code-bug evidence): `is_piece_complete` accepts a piece whose stored
bytes total 100 even though the expected piece length is 200, because of the
100-byte tolerance `total_size < expected_piece_length - 100`; the spec
requires zero tolerance, so any total below the expected length must be
reported incomplete. -/
theorem tolerance_accepts_short_piece :
    is_piece_complete [(0, [(0, List.replicate 100 7)])] 0 200 = true ∧
    totalSize [(0, List.replicate 100 7)] = 100 := by
  constructor
  · rfl
  · simp [totalSize]

/-- C6 (code-bug evidence): the session's BITFIELD handling decodes the
payload with no validation and has no error path; payload `0xFF` for a
4-piece torrent is accepted, with the four non-zero padding bits decoded as
presence flags for pieces 4–7. -/
theorem bitfield_padding_accepted :
    handle_bitfield [255] = List.replicate 8 true ∧
    (handle_bitfield [255]).getD 4 false = true := by
  constructor
  · rfl
  · rfl

theorem checkSeq_sound (blocks : Blocks) (l : List Nat) :
    ∀ exp, checkSeq blocks l exp = true →
      ∀ k, k < l.length →
        l.getD k 0 =
          exp + ((l.take k).map (fun o => (lookupBlock blocks o).length)).sum := by
  induction l with
  | nil => intro exp _ k hk; simp at hk
  | cons off rest ih =>
    intro exp h k hk
    rw [checkSeq] at h
    by_cases hoff : off ≠ exp
    · rw [if_pos hoff] at h; cases h
    · rw [if_neg hoff] at h
      push_neg at hoff
      cases k with
      | zero => simp [hoff]
      | succ k =>
        have hrec := ih _ h k (by simp only [List.length_cons] at hk; omega)
        simp only [List.getD_cons_succ, List.take_succ_cons, List.map_cons,
          List.sum_cons]
        omega

theorem assembleLoop_sound (blocks : Blocks) (l : List Nat) :
    ∀ exp acc d, assembleLoop blocks l exp acc = some d →
      ∀ k, k < l.length →
        l.getD k 0 =
          exp + ((l.take k).map (fun o => (lookupBlock blocks o).length)).sum := by
  induction l with
  | nil => intro exp acc d _ k hk; simp at hk
  | cons off rest ih =>
    intro exp acc d h k hk
    rw [assembleLoop] at h
    by_cases hoff : off ≠ exp
    · rw [if_pos hoff] at h; cases h
    · rw [if_neg hoff] at h
      push_neg at hoff
      cases k with
      | zero => simp [hoff]
      | succ k =>
        have hrec := ih _ _ _ h k (by simp only [List.length_cons] at hk; omega)
        simp only [List.getD_cons_succ, List.take_succ_cons, List.map_cons,
          List.sum_cons]
        omega

theorem assembleLoop_of_checkSeq (blocks : Blocks) (l : List Nat) :
    ∀ exp acc, checkSeq blocks l exp = true →
      assembleLoop blocks l exp acc =
        some (acc ++ (l.map (lookupBlock blocks)).flatten) := by
  induction l with
  | nil => intro exp acc _; simp [assembleLoop]
  | cons off rest ih =>
    intro exp acc h
    rw [checkSeq] at h
    rw [assembleLoop]
    by_cases hoff : off ≠ exp
    · rw [if_pos hoff] at h; cases h
    · rw [if_neg hoff] at h
      rw [if_neg hoff, ih _ _ h]
      simp

/-- C5: if the sorted offsets of a non-empty block map contain a gap or
overlap — some `offset_k` differs from the sum of the lengths of the blocks
at all earlier sorted offsets — then `is_piece_complete` is false and
`assemble_piece` returns `None`. -/
theorem gap_means_incomplete (pieces_dict : List (Nat × Blocks))
    (piece_index L : Nat) (blocks : Blocks)
    (hlk : pieces_dict.lookup piece_index = some blocks)
    (hne : blocks ≠ [])
    (hgap : ∃ k, k < (sortedOffsets blocks).length ∧
      (sortedOffsets blocks).getD k 0 ≠
        (((sortedOffsets blocks).take k).map
          (fun o => (lookupBlock blocks o).length)).sum) :
    is_piece_complete pieces_dict piece_index L = false ∧
    assemble_piece pieces_dict piece_index = none := by
  obtain ⟨k, hk, hkne⟩ := hgap
  have hemp : ¬ blocks.isEmpty = true := fun h => hne (List.isEmpty_iff.mp h)
  have hcheck : checkSeq blocks (sortedOffsets blocks) 0 = false := by
    cases hcs : checkSeq blocks (sortedOffsets blocks) 0
    · rfl
    · exact absurd (by simpa using checkSeq_sound blocks _ 0 hcs k hk) hkne
  have hasm : assembleLoop blocks (sortedOffsets blocks) 0 [] = none := by
    cases ha : assembleLoop blocks (sortedOffsets blocks) 0 [] with
    | none => rfl
    | some d =>
      exact absurd (by simpa using assembleLoop_sound blocks _ 0 [] d ha k hk) hkne
  constructor
  · rw [is_piece_complete, hlk]
    show (if blocks.isEmpty then false
      else if totalSize blocks < L - 100 then false
      else checkSeq blocks (sortedOffsets blocks) 0) = false
    rw [if_neg hemp]
    by_cases htot : totalSize blocks < L - 100
    · rw [if_pos htot]
    · rw [if_neg htot]; exact hcheck
  · rw [assemble_piece, hlk]
    show (if blocks.isEmpty then none
      else assembleLoop blocks (sortedOffsets blocks) 0 []) = none
    rw [if_neg hemp]
    exact hasm

/-- Witness for `gap_means_incomplete`: a single block stored at offset 1
(the block at offset 0 is missing). -/
theorem gap_means_incomplete_witness :
    is_piece_complete [(0, [(1, [5])])] 0 0 = false ∧
    assemble_piece [(0, [(1, [5])])] 0 = none :=
  gap_means_incomplete [(0, [(1, [5])])] 0 0 [(1, [5])] (by decide) (by decide)
    ⟨0, by decide, by decide⟩

theorem map_lookupBlock_keys (blocks : Blocks)
    (hnd : (blocks.map Prod.fst).Nodup) :
    (blocks.map Prod.fst).map (fun o => lookupBlock blocks o) =
      blocks.map Prod.snd := by
  induction blocks with
  | nil => rfl
  | cons b rest ih =>
    simp only [List.map_cons, List.nodup_cons] at hnd ⊢
    obtain ⟨hb, hrest⟩ := hnd
    congr 1
    · simp [lookupBlock, List.lookup]
    · have hsame : ∀ k ∈ rest.map Prod.fst,
          lookupBlock (b :: rest) k = lookupBlock rest k := by
        intro k hk
        have hkb : (k == b.1) = false := by
          rw [beq_eq_false_iff_ne]
          exact fun e => hb (e ▸ hk)
        simp [lookupBlock, List.lookup, hkb]
      rw [List.map_congr_left hsame, ih hrest]

/-- C10: whenever `is_piece_complete` holds for some expected length, the
piece assembles: `assemble_piece` returns the concatenation of the stored
blocks in ascending offset order, whose length is the sum of the stored
block lengths. -/
theorem complete_piece_assembles (pieces_dict : List (Nat × Blocks))
    (piece_index L : Nat) (blocks : Blocks)
    (hlk : pieces_dict.lookup piece_index = some blocks)
    (hnd : (blocks.map Prod.fst).Nodup)
    (hC : is_piece_complete pieces_dict piece_index L = true) :
    assemble_piece pieces_dict piece_index =
      some (((sortedOffsets blocks).map (lookupBlock blocks)).flatten) ∧
    (((sortedOffsets blocks).map (lookupBlock blocks)).flatten).length =
      totalSize blocks := by
  simp only [is_piece_complete, hlk] at hC
  split_ifs at hC with h1 h2
  constructor
  · rw [assemble_piece, hlk]
    show (if blocks.isEmpty then none
      else assembleLoop blocks (sortedOffsets blocks) 0 []) =
      some (((sortedOffsets blocks).map (lookupBlock blocks)).flatten)
    rw [if_neg h1, assembleLoop_of_checkSeq blocks _ 0 [] hC]
    simp
  · rw [List.length_flatten, List.map_map]
    have hperm : List.Perm (sortedOffsets blocks) (blocks.map Prod.fst) :=
      List.perm_insertionSort _ _
    rw [(hperm.map (List.length ∘ lookupBlock blocks)).sum_eq, ← List.map_map,
      map_lookupBlock_keys blocks hnd, List.map_map, totalSize]
    rfl

/-- Witness for `complete_piece_assembles`: two contiguous blocks at
offsets 0 and 2. -/
theorem complete_piece_assembles_witness :
    assemble_piece [(0, [(0, [1, 2]), (2, [3])])] 0 =
      some (((sortedOffsets [(0, [1, 2]), (2, [3])]).map
        (lookupBlock [(0, [1, 2]), (2, [3])])).flatten) ∧
    (((sortedOffsets [(0, [1, 2]), (2, [3])]).map
        (lookupBlock [(0, [1, 2]), (2, [3])])).flatten).length =
      totalSize [(0, [1, 2]), (2, [3])] :=
  complete_piece_assembles [(0, [(0, [1, 2]), (2, [3])])] 0 3
    [(0, [1, 2]), (2, [3])] (by decide) (by decide) (by decide)

set_option maxRecDepth 4096 in
/-- C7 (counterexample): the deposit code stores whatever block arrives, so
one deposit of a 16385-byte block at offset 0 into an empty assembly of a
16384-byte piece yields a stored block with `offset + len > piece_length`
and a total above the piece length, violating the claimed invariant. -/
theorem deposit_out_of_contract_counterexample :
    depositBlock [] 0 (List.replicate 16385 7) =
      [(0, List.replicate 16385 7)] ∧
    16384 < totalSize (depositBlock [] 0 (List.replicate 16385 7)) ∧
    ¬ assemblyInv 16384 (depositBlock [] 0 (List.replicate 16385 7)) := by
  have hdep : depositBlock [] 0 (List.replicate 16385 7) =
      [(0, List.replicate 16385 7)] := rfl
  refine ⟨rfl, ?_, ?_⟩
  · rw [hdep]
    simp only [totalSize, List.map_cons, List.map_nil, List.sum_cons,
      List.sum_nil, List.length_replicate]
    omega
  · intro hinv
    have h1 := hinv.1 (0, List.replicate 16385 7)
      (by rw [hdep]; exact List.mem_singleton_self _)
    dsimp only at h1
    simp only [List.length_replicate] at h1
    omega

/-- The byte positions a stored block occupies. -/
def blockRange (b : Nat × Bytes) : Finset Nat :=
  Finset.Ico b.1 (b.1 + b.2.length)

/-- All byte positions covered by an assembly. -/
def coveredSet : Blocks → Finset Nat
  | [] => ∅
  | b :: rest => blockRange b ∪ coveredSet rest

theorem disjoint_blockRange {b c : Nat × Bytes} (h : blocksDisjoint b c) :
    Disjoint (blockRange b) (blockRange c) := by
  rw [Finset.disjoint_left]
  intro x hx hx'
  simp only [blockRange, Finset.mem_Ico] at hx hx'
  rcases h with h | h <;> omega

theorem disjoint_coveredSet {b : Nat × Bytes} {bs : Blocks}
    (h : ∀ c ∈ bs, blocksDisjoint b c) :
    Disjoint (blockRange b) (coveredSet bs) := by
  induction bs with
  | nil => simp [coveredSet]
  | cons c rest ih =>
    rw [coveredSet, Finset.disjoint_union_right]
    exact ⟨disjoint_blockRange (h c (by simp)),
      ih fun d hd => h d (by simp [hd])⟩

theorem card_coveredSet {bs : Blocks} (h : bs.Pairwise blocksDisjoint) :
    (coveredSet bs).card = totalSize bs := by
  induction bs with
  | nil => simp [coveredSet, totalSize]
  | cons b rest ih =>
    obtain ⟨hb, hrest⟩ := List.pairwise_cons.mp h
    rw [coveredSet, Finset.card_union_of_disjoint (disjoint_coveredSet hb),
      ih hrest]
    simp [blockRange, totalSize]

theorem coveredSet_subset {L : Nat} {bs : Blocks}
    (h : ∀ b ∈ bs, b.1 + b.2.length ≤ L) :
    coveredSet bs ⊆ Finset.Ico 0 L := by
  induction bs with
  | nil => simp [coveredSet]
  | cons b rest ih =>
    rw [coveredSet, Finset.union_subset_iff]
    refine ⟨?_, ih fun c hc => h c (by simp [hc])⟩
    refine Finset.Ico_subset_Ico (Nat.zero_le _) (h b (by simp))

theorem totalSize_le_of_inv {L : Nat} {bs : Blocks}
    (hb : ∀ b ∈ bs, b.1 + b.2.length ≤ L)
    (hp : bs.Pairwise blocksDisjoint) : totalSize bs ≤ L := by
  rw [← card_coveredSet hp]
  calc (coveredSet bs).card ≤ (Finset.Ico 0 L).card :=
        Finset.card_le_card (coveredSet_subset hb)
    _ = L := by rw [Nat.card_Ico]; omega

/-- C7 (amended): depositing a block at a fresh offset that lies within the
piece and overlaps no stored block preserves the assembly invariant — no
overlapping ranges and every block in bounds — and keeps the total stored
bytes at or below the piece length.  (The code itself enforces none of
these preconditions; see the counterexample.) -/
theorem deposit_preserves_assembly_inv (L : Nat) (blocks : Blocks)
    (off : Nat) (data : Bytes)
    (hinv : assemblyInv L blocks)
    (hfresh : off ∉ blocks.map Prod.fst)
    (hbound : off + data.length ≤ L)
    (hdisj : ∀ b ∈ blocks, blocksDisjoint (off, data) b) :
    assemblyInv L (depositBlock blocks off data) ∧
    totalSize (depositBlock blocks off data) ≤ L := by
  obtain ⟨hin, hpair⟩ := hinv
  have happ : depositBlock blocks off data = blocks ++ [(off, data)] := by
    rw [depositBlock, if_neg]
    simp only [List.any_eq_true, beq_iff_eq, not_exists, not_and]
    exact fun b hb e => hfresh (List.mem_map.mpr ⟨b, hb, e⟩)
  have hinv' : assemblyInv L (blocks ++ [(off, data)]) := by
    constructor
    · intro b hb
      rcases List.mem_append.mp hb with h | h
      · exact hin b h
      · simp only [List.mem_singleton] at h
        subst h
        exact hbound
    · rw [List.pairwise_append]
      refine ⟨hpair, List.pairwise_singleton _ _, ?_⟩
      intro a ha b hb
      simp only [List.mem_singleton] at hb
      subst hb
      rcases hdisj a ha with h | h
      · exact Or.inr h
      · exact Or.inl h
  rw [happ]
  exact ⟨hinv', totalSize_le_of_inv hinv'.1 hinv'.2⟩

/-- Witness for `deposit_preserves_assembly_inv`: a fresh 1-byte block at
offset 1 of a 2-byte piece whose byte 0 is already stored. -/
theorem deposit_preserves_assembly_inv_witness :
    assemblyInv 2 (depositBlock [(0, [7])] 1 [8]) ∧
    totalSize (depositBlock [(0, [7])] 1 [8]) ≤ 2 :=
  deposit_preserves_assembly_inv 2 [(0, [7])] 1 [8]
    ⟨by decide, by decide⟩ (by decide) (by decide) (by decide)

theorem eligiblePiece_iff (bitfield : List Bool) (completed dl : Finset Nat)
    (i : Nat) :
    eligiblePiece bitfield completed dl i = true ↔
      i ∉ completed ∧ i ∉ dl ∧ bitfield.getD i false = true := by
  simp [eligiblePiece, and_assoc]

theorem eligiblePiece_insert (bitfield : List Bool) (completed dl : Finset Nat)
    (i x : Nat) (hx : x ≠ i) :
    eligiblePiece bitfield completed (insert i dl) x =
      eligiblePiece bitfield completed dl x := by
  simp [eligiblePiece, Finset.mem_insert, hx]

theorem claimInitial_eq (bitfield : List Bool) (completed : Finset Nat)
    (maxc : Nat) :
    ∀ (l : List Nat) (dl : Finset Nat), l.Nodup →
      claimInitial bitfield completed maxc l dl =
        ((l.filter (fun i => eligiblePiece bitfield completed dl i)).take
            (maxc - dl.card),
         dl ∪ ((l.filter (fun i => eligiblePiece bitfield completed dl i)).take
            (maxc - dl.card)).toFinset) := by
  intro l
  induction l with
  | nil => intro dl _; simp [claimInitial]
  | cons i rest ih =>
    intro dl hnd
    obtain ⟨hi, hrest⟩ := List.nodup_cons.mp hnd
    rw [claimInitial]
    by_cases he : eligiblePiece bitfield completed dl i = true ∧ dl.card < maxc
    · rw [if_pos he]
      have hidl : i ∉ dl := ((eligiblePiece_iff _ _ _ _).mp he.1).2.1
      have hcard : (insert i dl).card = dl.card + 1 :=
        Finset.card_insert_of_not_mem hidl
      have hfilter : (i :: rest).filter
            (fun j => eligiblePiece bitfield completed dl j) =
          i :: rest.filter (fun j => eligiblePiece bitfield completed dl j) := by
        simp [List.filter_cons, he.1]
      by_cases hfull : maxc ≤ (insert i dl).card
      · rw [if_pos hfull]
        have h1 : maxc - dl.card = 1 := by omega
        rw [hfilter, h1, List.take_succ_cons, List.take_zero]
        rw [Prod.mk.injEq]
        refine ⟨rfl, ?_⟩
        ext x
        simp [or_comm]
      · rw [if_neg hfull]
        have heq : rest.filter
              (fun j => eligiblePiece bitfield completed (insert i dl) j) =
            rest.filter (fun j => eligiblePiece bitfield completed dl j) := by
          apply List.filter_congr
          intro x hx
          exact eligiblePiece_insert _ _ _ _ _ (fun e => hi (e ▸ hx))
        rw [ih (insert i dl) hrest, heq, hcard]
        have h2 : maxc - dl.card = (maxc - (dl.card + 1)) + 1 := by omega
        rw [hfilter, h2, List.take_succ_cons]
        rw [Prod.mk.injEq]
        refine ⟨rfl, ?_⟩
        simp only [List.toFinset_cons]
        ext x
        simp only [Finset.mem_union, Finset.mem_insert, List.mem_toFinset]
        tauto
    · rw [if_neg he]
      by_cases he1 : eligiblePiece bitfield completed dl i = true
      · have hcap : ¬ dl.card < maxc := fun hc => he ⟨he1, hc⟩
        have h0 : maxc - dl.card = 0 := by omega
        rw [ih dl hrest, h0]
        simp
      · have hfilter : (i :: rest).filter
              (fun j => eligiblePiece bitfield completed dl j) =
            rest.filter (fun j => eligiblePiece bitfield completed dl j) := by
          simp [List.filter_cons, he1]
        rw [ih dl hrest, hfilter]

theorem claimNext_eq (bitfield : List Bool) (completed : Finset Nat) :
    ∀ (l : List Nat) (dl : Finset Nat),
      claimNext bitfield completed l dl =
        match l.find? (fun i => eligiblePiece bitfield completed dl i) with
        | none => (none, dl)
        | some i => (some i, insert i dl) := by
  intro l
  induction l with
  | nil => intro dl; simp [claimNext]
  | cons i rest ih =>
    intro dl
    rw [claimNext]
    by_cases he : eligiblePiece bitfield completed dl i = true
    · rw [if_pos he, List.find?_cons_of_pos _ he]
    · rw [if_neg he, ih dl, List.find?_cons_of_neg _ (by simpa using he)]

theorem getD_take_of_lt (l : List Nat) (n k : Nat) (h : k < (l.take n).length) :
    (l.take n).getD k 0 = l.getD k 0 := by
  have hk : k < l.length := by
    simp only [List.length_take] at h
    omega
  rw [List.getD_eq_getElem _ _ h, List.getD_eq_getElem _ _ hk]
  exact List.getElem_take _

theorem getD_mem_of_lt (l : List Nat) (k : Nat) (h : k < l.length) :
    l.getD k 0 ∈ l := by
  rw [List.getD_eq_getElem _ _ h]
  exact List.getElem_mem h

theorem mem_take_of_lt_getD {l : List Nat} (hs : l.Pairwise (· < ·))
    {k : Nat} (hk : k < l.length) {x : Nat} (hx : x ∈ l)
    (hlt : x < l.getD k 0) : x ∈ l.take k := by
  obtain ⟨m, hm, rfl⟩ := List.mem_iff_getElem.mp hx
  rw [List.getD_eq_getElem _ _ hk] at hlt
  have hmk : m < k := by
    by_contra hge
    push_neg at hge
    rcases Nat.eq_or_lt_of_le hge with h | h
    · subst h
      exact lt_irrefl _ hlt
    · exact absurd (List.pairwise_iff_getElem.mp hs k m hk hm h)
        (by omega)
  refine List.mem_iff_getElem.mpr ⟨m, ?_, ?_⟩
  · simp only [List.length_take]
    omega
  · exact List.getElem_take _

theorem getD_not_mem_take {l : List Nat} (hs : l.Pairwise (· < ·))
    {k : Nat} (hk : k < l.length) : l.getD k 0 ∉ l.take k := by
  intro hmem
  obtain ⟨m, hm, heq⟩ := List.mem_iff_getElem.mp hmem
  have hmk : m < k := by
    simp only [List.length_take] at hm
    omega
  have hml : m < l.length := by omega
  have h1 : (l.take k)[m] = l[m] := List.getElem_take _
  rw [h1, List.getD_eq_getElem _ _ hk] at heq
  exact absurd (List.pairwise_iff_getElem.mp hs m k hml hk hmk) (by omega)

theorem find?_sorted_min {p : Nat → Bool} :
    ∀ {l : List Nat}, l.Pairwise (· < ·) →
      ∀ {i : Nat}, l.find? p = some i →
        ∀ j ∈ l, p j = true → i ≤ j := by
  intro l
  induction l with
  | nil => intro _ i h; cases h
  | cons x rest ih =>
    intro hs i hfind j hj hpj
    obtain ⟨hx, hrest⟩ := List.pairwise_cons.mp hs
    by_cases hpx : p x = true
    · rw [List.find?_cons_of_pos _ hpx] at hfind
      obtain rfl : x = i := by injection hfind
      rcases List.mem_cons.mp hj with rfl | hj'
      · exact le_refl _
      · exact le_of_lt (hx j hj')
    · rw [List.find?_cons_of_neg _ (by simpa using hpx)] at hfind
      rcases List.mem_cons.mp hj with rfl | hj'
      · exact absurd hpj hpx
      · exact ih hrest hfind j hj' hpj

/-- C9: whenever the session claims new pieces — `async_request_initial_blocks`
at unchoke and `async_request_next_available_piece` after a completion — the
claimed indices are strictly ascending; each claimed index is, with all
previously claimed indices already added to the downloading set, the
smallest index `i` with `bitfield[i]` true, `i` not completed, `i` not
downloading and `i < N`; and the final downloading set is the old one plus
exactly the claimed indices. -/
theorem claim_selection_ascending (bitfield : List Bool)
    (completed downloading : Finset Nat) (ptd maxc N : Nat)
    (hptd : ptd ≤ N) :
    ((async_request_initial_blocks bitfield completed downloading ptd
        maxc).1.Pairwise (· < ·) ∧
      (async_request_initial_blocks bitfield completed downloading ptd
        maxc).2 =
        downloading ∪
          (async_request_initial_blocks bitfield completed downloading ptd
            maxc).1.toFinset ∧
      ∀ k, k < (async_request_initial_blocks bitfield completed downloading
          ptd maxc).1.length →
        eligSpec bitfield completed
          (downloading ∪
            ((async_request_initial_blocks bitfield completed downloading ptd
              maxc).1.take k).toFinset) N
          ((async_request_initial_blocks bitfield completed downloading ptd
            maxc).1.getD k 0) ∧
        ∀ j, eligSpec bitfield completed
            (downloading ∪
              ((async_request_initial_blocks bitfield completed downloading
                ptd maxc).1.take k).toFinset) N j →
          (async_request_initial_blocks bitfield completed downloading ptd
            maxc).1.getD k 0 ≤ j) ∧
    ∀ i, (async_request_next_available_piece bitfield completed downloading
        ptd).1 = some i →
      (async_request_next_available_piece bitfield completed downloading
        ptd).2 = insert i downloading ∧
      eligSpec bitfield completed downloading N i ∧
      ∀ j, eligSpec bitfield completed downloading N j → i ≤ j := by
  constructor
  · have hr : async_request_initial_blocks bitfield completed downloading ptd
        maxc =
        (((List.range (min ptd bitfield.length)).filter
            (fun i => eligiblePiece bitfield completed downloading i)).take
          (maxc - downloading.card),
         downloading ∪
          (((List.range (min ptd bitfield.length)).filter
              (fun i => eligiblePiece bitfield completed downloading i)).take
            (maxc - downloading.card)).toFinset) :=
      claimInitial_eq bitfield completed maxc _ downloading
        (List.nodup_range _)
    rw [hr]
    dsimp only
    set fl := (List.range (min ptd bitfield.length)).filter
      (fun i => eligiblePiece bitfield completed downloading i) with hfl
    set cap := maxc - downloading.card with hcap
    have hflsorted : fl.Pairwise (· < ·) := by
      rw [hfl]
      exact (List.pairwise_lt_range _).sublist (List.filter_sublist _)
    have hcssorted : (fl.take cap).Pairwise (· < ·) :=
      hflsorted.sublist (List.take_sublist _ _)
    refine ⟨hcssorted, rfl, ?_⟩
    intro k hk
    simp only [List.length_take] at hk
    have hkfl : k < fl.length := by omega
    have hkcap : k < cap := by omega
    have hk' : k < (fl.take cap).length := by
      simp only [List.length_take]
      omega
    have hgd : (fl.take cap).getD k 0 = fl.getD k 0 :=
      getD_take_of_lt _ _ _ hk'
    have hmem : fl.getD k 0 ∈ fl := getD_mem_of_lt _ _ hkfl
    have hmemr : fl.getD k 0 ∈ List.range (min ptd bitfield.length) ∧
        eligiblePiece bitfield completed downloading (fl.getD k 0) = true := by
      rw [hfl] at hmem
      exact ⟨(List.mem_filter.mp hmem).1, (List.mem_filter.mp hmem).2⟩
    have hlt_bound : fl.getD k 0 < min ptd bitfield.length :=
      List.mem_range.mp hmemr.1
    have helig := (eligiblePiece_iff _ _ _ _).mp hmemr.2
    have hnotintake : fl.getD k 0 ∉ (fl.take cap).take k := by
      rw [← hgd]
      exact getD_not_mem_take hcssorted hk'
    rw [hgd]
    constructor
    · refine ⟨helig.2.2, helig.1, ?_, by omega⟩
      intro hmem2
      rcases Finset.mem_union.mp hmem2 with h | h
      · exact helig.2.1 h
      · exact hnotintake (List.mem_toFinset.mp h)
    · intro j hj
      obtain ⟨hjbf, hjc, hjdl, hjN⟩ := hj
      by_contra hja
      push_neg at hja
      have hjb : j < min ptd bitfield.length := by omega
      have hjelig : eligiblePiece bitfield completed downloading j = true := by
        rw [eligiblePiece_iff]
        exact ⟨hjc, fun hjd => hjdl (Finset.mem_union_left _ hjd), hjbf⟩
      have hjfl : j ∈ fl := by
        rw [hfl]
        exact List.mem_filter.mpr ⟨List.mem_range.mpr hjb, hjelig⟩
      have hjtake : j ∈ fl.take k := mem_take_of_lt_getD hflsorted hkfl hjfl hja
      have htk : (fl.take cap).take k = fl.take k := by
        rw [List.take_take, show k ⊓ cap = k from by omega]
      exact hjdl (Finset.mem_union_right _
        (List.mem_toFinset.mpr (htk.symm ▸ hjtake)))
  · intro i hi
    have hn := claimNext_eq bitfield completed
      (List.range (min ptd bitfield.length)) downloading
    rw [async_request_next_available_piece, hn] at hi ⊢
    cases hfind : (List.range (min ptd bitfield.length)).find?
        (fun i => eligiblePiece bitfield completed downloading i) with
    | none =>
      rw [hfind] at hi
      simp at hi
    | some x =>
      rw [hfind] at hi
      obtain rfl : x = i := by simpa using hi
      have hpi : eligiblePiece bitfield completed downloading x = true :=
        List.find?_some hfind
      have hirange : x ∈ List.range (min ptd bitfield.length) :=
        List.mem_of_find?_eq_some hfind
      have hib : x < min ptd bitfield.length := List.mem_range.mp hirange
      have helig := (eligiblePiece_iff _ _ _ _).mp hpi
      refine ⟨rfl, ⟨helig.2.2, helig.1, helig.2.1, by omega⟩, ?_⟩
      intro j hj
      obtain ⟨hjbf, hjc, hjdl, hjN⟩ := hj
      by_cases hjb : j < min ptd bitfield.length
      · have hjelig : eligiblePiece bitfield completed downloading j = true :=
          (eligiblePiece_iff _ _ _ _).mpr ⟨hjc, hjdl, hjbf⟩
        exact find?_sorted_min (List.pairwise_lt_range _) hfind j
          (List.mem_range.mpr hjb) hjelig
      · by_cases hjlen : j < bitfield.length
        · omega
        · have : bitfield.getD j false = false :=
            List.getD_eq_default _ _ (by omega)
          rw [this] at hjbf
          cases hjbf

/-- Witness for `claim_selection_ascending`: a 2-piece torrent where piece 0
is already completed. -/
theorem claim_selection_ascending_witness :
    (async_request_initial_blocks [true, true] {0} ∅ 2 1).1.Pairwise
      (· < ·) :=
  (claim_selection_ascending [true, true] {0} ∅ 2 1 2 (by omega)).1.1

end BT
